import Mathlib

/-!
Verification development for the `editorjs-realtime-collab` replica
synchronization engine (the `GroupCollab` class of the main source file).

The engine is embedded shallowly:
* tool payloads (`BlockToolData`/`tunes`, i.e. arbitrary JSON-shaped
  JavaScript values) become the inductive `JVal`;
* the editor document (the host surface's ordered block list) becomes a
  `List Block`; the host surface's CRUD operations
  (`editor.blocks.insert/update/delete/move/getById/getBlockIndex`) are
  embedded with JavaScript `splice` semantics (index clamping on insert,
  out-of-range remove is a no-op, a failed lookup yields `none` and the
  corresponding mutating call degrades to a no-op, matching the host
  contract "each possibly failing with a not-found condition");
* the engine state (`ignoreEvents`, `_lockedBlocks`,
  `_currentEditorLockingBlockId`, `_customToolsInternalState`,
  `localBlockStates`) becomes the structure `CollabState`;
* `onReceiveChange` and `onEditorBlockEvent` become functions returning the
  new state together with a trace of `Action`s (suppression registrations,
  host-surface mutating calls, socket sends, lock-timer resets) in the
  order the source performs them;
* the `throttle`/`debounce` helpers from the `throttle-debounce` package
  (imported by the source) are embedded as an explicit timed state machine
  with the package's default options (leading edge enabled, trailing edge
  enabled), over discrete `Nat` time.
Purely presentational DOM work (fake cursors, fake selections, CSS
classes, style sheets) is outside the consistency-critical state and is
not modelled, except where a DOM class toggle feeds back into the
engine's own mutation observers, which is modelled as a `mutate` action.
-/

/-- JSON-shaped JavaScript value: the shape of `BlockToolData` and `tunes`
payloads that `compareToolsData` receives. Numbers are embedded as `Int`
(the engine never computes with them, it only compares). -/
inductive JVal where
  | null : JVal
  | bool : Bool → JVal
  | num : Int → JVal
  | str : String → JVal
  | arr : List JVal → JVal
  | obj : List (String × JVal) → JVal

/-- JavaScript `typeof` on a `JVal` (`typeof null` is `"object"`). -/
def jtypeof : JVal → String
  | .null => "object"
  | .bool _ => "boolean"
  | .num _ => "number"
  | .str _ => "string"
  | .arr _ => "object"
  | .obj _ => "object"

/-- Is the value `null`? -/
def JVal.isNull : JVal → Bool
  | .null => true
  | _ => false

/-- A composite value: an array or a plain object (the non-null values of
`typeof` `"object"`). -/
def JVal.isComposite : JVal → Bool
  | .arr _ => true
  | .obj _ => true
  | _ => false

/-- JavaScript strict equality `===` as it is reached inside
`recursiveCompare`: only on pairs that either are not of `typeof`
`"object"` or contain a `null` (reference equality on two distinct live
objects is never relevant there because the recursive branch handles
them). -/
def primEq : JVal → JVal → Bool
  | .null, .null => true
  | .bool x, .bool y => x == y
  | .num x, .num y => x == y
  | .str x, .str y => x == y
  | _, _ => false

/-- `Object.keys`/indexing view of an array: JavaScript gives an array the
string keys `"0"`, `"1"`, … mapping to its elements. -/
def arrProps (i : Nat) : List JVal → List (String × JVal)
  | [] => []
  | x :: xs => (toString i, x) :: arrProps (i + 1) xs

/-- The own enumerable string-keyed properties of a composite value, in
insertion order, as `Object.keys` enumerates them. -/
def props : JVal → List (String × JVal)
  | .arr xs => arrProps 0 xs
  | .obj kvs => kvs
  | _ => []

/-- Property access `o[k]` (first binding wins; JavaScript objects cannot
hold duplicate keys, which well-formedness captures below). -/
def jlookup (k : String) : List (String × JVal) → Option JVal
  | [] => none
  | (k1, v) :: rest => if k1 = k then some v else jlookup k rest

mutual
/-- The inner `recursiveCompare` of `GroupCollab.compareToolsData`:
`typeof` mismatch is `false`; non-objects and `null`s are compared with
`===`; otherwise `Object.keys` of both sides must have equal length and
every key of the first side must exist on the second with recursively
compared values. -/
def recursiveCompare (a b : JVal) : Bool :=
  if jtypeof a ≠ jtypeof b then false
  else if jtypeof a ≠ "object" || a.isNull || b.isNull then primEq a b
  else
    (props a).length == (props b).length &&
      match a with
      | .arr xs => rcArr 0 xs (props b)
      | .obj kvs => rcObj kvs (props b)
      | _ => false
termination_by sizeOf a
decreasing_by all_goals simp_wf <;> omega

/-- The `for (const key of keys1)` loop of `recursiveCompare`, specialised
to an array's index keys: `!keys2.includes(key)` is exactly a failed
lookup, then the values are compared recursively. -/
def rcArr (i : Nat) (xs : List JVal) (pb : List (String × JVal)) : Bool :=
  match xs with
  | [] => true
  | x :: rest =>
    (match jlookup (toString i) pb with
     | none => false
     | some w => recursiveCompare x w) && rcArr (i + 1) rest pb
termination_by sizeOf xs
decreasing_by all_goals simp_wf <;> omega

/-- The `for (const key of keys1)` loop of `recursiveCompare` on a plain
object's own keys. -/
def rcObj (kvs : List (String × JVal)) (pb : List (String × JVal)) : Bool :=
  match kvs with
  | [] => true
  | (k, v) :: rest =>
    (match jlookup k pb with
     | none => false
     | some w => recursiveCompare v w) && rcObj rest pb
termination_by sizeOf kvs
decreasing_by all_goals simp_wf <;> omega
end

/-- The logical payload the engine snapshots for "noisy" tools: the
`{ data, tunes }` pair (`type ToolData = { data: Object, tunes: Object }`
in the source). -/
structure ToolData where
  data : JVal
  tunes : JVal

/-- A `ToolData` as the plain two-key object `compareToolsData` receives. -/
def ToolData.toJVal (t : ToolData) : JVal :=
  .obj [("data", t.data), ("tunes", t.tunes)]

/-- `GroupCollab.compareToolsData`: runs `recursiveCompare` on the two
`{ data, tunes }` objects. -/
def compareToolsData (t1 t2 : ToolData) : Bool :=
  recursiveCompare t1.toJVal t2.toJVal

/-- Strict recursive structural equality, written from the claim's words
with the usual reading that the two values must have the same shape:
equal primitive leaves, arrays of equal length with pairwise equal
elements, and objects with equal key sets and pairwise equal values
independent of key order. An array is never equal to a plain object. -/
inductive SpecEq : JVal → JVal → Prop where
  | null : SpecEq .null .null
  | bool (b : Bool) : SpecEq (.bool b) (.bool b)
  | num (n : Int) : SpecEq (.num n) (.num n)
  | str (s : String) : SpecEq (.str s) (.str s)
  | arr (xs ys : List JVal) :
      xs.length = ys.length →
      (∀ i x y, xs.get? i = some x → ys.get? i = some y → SpecEq x y) →
      SpecEq (.arr xs) (.arr ys)
  | obj (kvs1 kvs2 : List (String × JVal)) :
      (∀ k, jlookup k kvs1 = none ↔ jlookup k kvs2 = none) →
      (∀ k v w, jlookup k kvs1 = some v → jlookup k kvs2 = some w →
        SpecEq v w) →
      SpecEq (.obj kvs1) (.obj kvs2)

/-- Structural equality as the code actually decides it: every composite
value (array or plain object alike) is viewed as its string-keyed
property mapping, and two values are equal when they are equal primitive
leaves, or both composite with equal key sets and pairwise equal values,
independent of key order. This differs from `SpecEq` only in identifying
an array with the object of its index keys. -/
inductive SpecEqJS : JVal → JVal → Prop where
  | prim (a b : JVal) :
      (jtypeof a ≠ "object" ∨ a = .null ∨ b = .null) →
      primEq a b = true →
      SpecEqJS a b
  | comp (a b : JVal) :
      a.isComposite = true → b.isComposite = true →
      (∀ k, jlookup k (props a) = none ↔ jlookup k (props b) = none) →
      (∀ k v w, jlookup k (props a) = some v →
        jlookup k (props b) = some w → SpecEqJS v w) →
      SpecEqJS a b

/-- Well-formed JavaScript value: no composite in it holds two own
properties under the same key (JavaScript objects and arrays cannot; the
Lean association lists could). -/
inductive WFj : JVal → Prop where
  | mk (a : JVal) :
      ((props a).map Prod.fst).Nodup →
      (∀ k v, jlookup k (props a) = some v → WFj v) →
      WFj a

/-- A content unit as the engine sees it: EditorJS `SavedData` — stable
`id`, tool name, and the saved `data`/`tunes` payloads. -/
structure Block where
  id : String
  tool : String
  data : JVal
  tunes : JVal

/-- The host surface's document: the ordered block list owned by the
editor, which the engine mutates only through the CRUD calls below. -/
abbrev Doc := List Block

/-- JavaScript `array.splice(i, 0, b)`: insert at `i`, clamping `i` to the
array length (an over-large index appends at the end). -/
def spliceInsert : Doc → Nat → Block → Doc
  | l, 0, b => b :: l
  | [], _ + 1, b => [b]
  | x :: xs, n + 1, b => x :: spliceInsert xs n b

/-- JavaScript `array.splice(i, 1)`: remove the element at `i`; an
out-of-range index removes nothing. -/
def spliceRemove : Doc → Nat → Doc
  | [], _ => []
  | _ :: xs, 0 => xs
  | x :: xs, n + 1 => x :: spliceRemove xs n

/-- `editor.blocks.getBlockIndex(id)`: index of the (first) block with the
given id, `none` when absent (the API returns `undefined` then). -/
def getBlockIndex : Doc → String → Option Nat
  | [], _ => none
  | b :: bs, i => if b.id = i then some 0 else (getBlockIndex bs i).map (· + 1)

/-- `editor.blocks.getById(id)`: the block with the given id, or `none`. -/
def getById : Doc → String → Option Block
  | [], _ => none
  | b :: bs, i => if b.id = i then some b else getById bs i

/-- Number of blocks carrying a given id (the document invariant the spec
states is that this is at most 1). -/
def countById (d : Doc) (i : String) : Nat :=
  (d.filter (fun b => b.id = i)).length

/-- `editor.blocks.update(id, data)`: replace the data of the block with
the given id; rejects (here: `none`) when no such block exists. -/
def blocksUpdate : Doc → String → JVal → Option Doc
  | [], _, _ => none
  | b :: bs, i, dat =>
    if b.id = i then some ({ b with data := dat } :: bs)
    else (blocksUpdate bs i dat).map (b :: ·)

/-- `editor.blocks.delete(index)` called with the result of a by-id index
lookup: deleting at a missing (`none`, i.e. `undefined`) or out-of-range
index fails inside the host surface and is caught there, so the document
is unchanged. -/
def blocksDelete (d : Doc) : Option Nat → Doc
  | some i => spliceRemove d i
  | none => d

/-- `editor.blocks.move(toIndex, fromIndex)`: splice the block out at
`fromIndex` and splice it back in at `toIndex`; a missing index degrades
to a no-op per the host contract. -/
def blocksMove (d : Doc) (toIdx fromIdx : Option Nat) : Doc :=
  match toIdx, fromIdx with
  | some t, some f =>
    match d.get? f with
    | some b => spliceInsert (spliceRemove d f) t b
    | none => d
  | _, _ => d

/-- The event kinds the engine tracks in its ignore list (`type Events`
in the source): the four EditorJS block mutation kinds plus the engine's
own selection/deletion notification kinds. The lock/unlock kinds never
appear as locally observed events and suppression for them is registered
under `block-changed`, as the source does. -/
inductive Events where
  | blockAdded
  | blockChanged
  | blockRemoved
  | blockMoved
  | blockSelectionChange
  | blockDeletionChange
deriving DecidableEq

/-- A lock lease: `type LockedBlock = { blockId, connectionId }`. -/
structure LockedBlock where
  blockId : String
  connectionId : String
deriving DecidableEq

/-- The wire messages (`MessageData`) whose application touches the
consistency-critical state. `blockMoved.toBlockId` is optional because
the sender reads it with `getBlockByIndex(fromIndex)?.id`. The
presence-only `inline-selection-change` message mutates no
consistency-critical state and is omitted. -/
inductive Msg where
  | blockAdded (index : Nat) (block : Block)
  | blockChanged (index : Nat) (block : Block)
  | blockRemoved (blockId : String)
  | blockMoved (fromBlockId : String) (toBlockId : Option String) (toBlockIndex : Nat)
  | blockLocked (blockId : String) (connectionId : String)
  | blockUnlocked (blockId : String) (connectionId : String)
  | blockSelectionChange (blockId : String) (isSelected : Bool)
  | blockDeletionChange (blockId : String) (isDeletePending : Bool)
  | userDisconnected (connectionId : String)

/-- The engine's consistency-critical state: the mirrored document plus
the private fields of `GroupCollab`. `ignoreEvents` is the registry of
`(unitId, kind)` suppression entries currently alive (each is scheduled
for removal on the next tick by `addBlockToIgnoreListUntilNextRender`;
within the same reconciliation pass it is present). -/
structure CollabState where
  doc : Doc
  ignoreEvents : List (String × Events)
  lockedBlocks : List LockedBlock
  currentEditorLockingBlockId : Option String
  customToolsInternalState : List (String × ToolData)
  localBlockStates : List (String × List String)
  toolsWithDataCheck : List String
  connectionId : String

/-- Association-list lookup used for the engine's string-keyed records. -/
def alookup {α : Type} : List (String × α) → String → Option α
  | [], _ => none
  | (k, v) :: rest, i => if k = i then some v else alookup rest i

/-- Association-list update/insert (`record[key] = value`). -/
def aupdate {α : Type} : List (String × α) → String → α → List (String × α)
  | [], k, v => [(k, v)]
  | (k1, v1) :: rest, k, v =>
    if k1 = k then (k, v) :: rest else (k1, v1) :: aupdate rest k v

/-- Association-list removal (`delete record[key]`). -/
def aerase {α : Type} : List (String × α) → String → List (String × α)
  | [], _ => []
  | (k1, v1) :: rest, k => if k1 = k then aerase rest k else (k1, v1) :: aerase rest k

/-- One step of the engine's observable behaviour, in program order:
registering a suppression entry (`addBlockToIgnorelist`), invoking a
host-surface mutating operation that will synchronously fire a local
observer for the named unit and kind, sending a socket message, resetting
the per-unit debounced idle-unlock timer (`debouncedBlockUnlocking`), and
handing a content snapshot request to the per-engine throttle
(`throttledBlockChange`). -/
inductive Act where
  | suppress (blockId : String) (kind : Events)
  | mutate (blockId : String) (kind : Events)
  | send (m : Msg)
  | resetUnlockTimer (blockId : String)
  | throttleCall (blockId : String) (index : Nat)

/-- The socket messages of a trace. -/
def sendsOf (l : List Act) : List Msg :=
  l.filterMap fun a => match a with
    | .send m => some m
    | _ => none

/-- `addBlockToIgnorelist`: record `(blockId, kind)` in the ignore
registry (entries accumulate; consumption is per kind). -/
def addBlockToIgnorelist (s : CollabState) (blockId : String) (t : Events) : CollabState :=
  { s with ignoreEvents := (blockId, t) :: s.ignoreEvents }

/-- `onReceiveChange`: apply one remote message to the local state. The
result traces, in source order, the suppression registrations, the
host-surface mutating calls (each of which synchronously fires local
observers), and any sends. DOM-only work (cursor/selection cleanup,
style patching, class re-rendering) is not represented, except that the
class toggles done for `block-selection-change` / `block-deletion-change`
are the mutations their ignore entries guard, so they appear as `mutate`
actions. -/
def onReceiveChange (s : CollabState) (m : Msg) : CollabState × List Act :=
  match m with
  | .blockAdded index block =>
    let s1 := addBlockToIgnorelist s block.id .blockAdded
    let s2 := { s1 with doc := spliceInsert s.doc index block }
    let s3 :=
      if block.tool ∈ s2.toolsWithDataCheck then
        { s2 with customToolsInternalState :=
            aupdate s2.customToolsInternalState block.id ⟨block.data, block.tunes⟩ }
      else s2
    (s3, [.suppress block.id .blockAdded, .mutate block.id .blockAdded])
  | .blockChanged index block =>
    let s1 := addBlockToIgnorelist s block.id .blockChanged
    let s2 :=
      if block.tool ∈ s1.toolsWithDataCheck then
        { s1 with customToolsInternalState :=
            aupdate s1.customToolsInternalState block.id ⟨block.data, block.tunes⟩ }
      else s1
    match getById s.doc block.id with
    | none => (s2, [.suppress block.id .blockChanged])
    | some _ =>
      match blocksUpdate s.doc block.id block.data with
      | some d1 =>
        ({ s2 with doc := d1 },
         [.suppress block.id .blockChanged, .mutate block.id .blockChanged])
      | none =>
        -- the catch branch: update rejected with "Block … not found"
        let s3 := addBlockToIgnorelist s2 block.id .blockAdded
        ({ s3 with doc := spliceInsert s.doc index block },
         [.suppress block.id .blockChanged, .suppress block.id .blockAdded,
          .mutate block.id .blockAdded])
  | .blockMoved fromBlockId toBlockId toBlockIndex =>
    let toIdx := toBlockId.bind (getBlockIndex s.doc)
    let fromIdx := getBlockIndex s.doc fromBlockId
    if fromIdx = some toBlockIndex then (s, [])
    else
      let s1 := addBlockToIgnorelist s fromBlockId .blockMoved
      ({ s1 with doc := blocksMove s.doc toIdx fromIdx },
       [.suppress fromBlockId .blockMoved, .mutate fromBlockId .blockMoved])
  | .blockRemoved blockId =>
    let s1 := addBlockToIgnorelist s blockId .blockRemoved
    let idx := getBlockIndex s.doc blockId
    let blockName := match idx.bind s.doc.get? with
      | some b => b.tool
      | none => ""
    let s2 := { s1 with doc := blocksDelete s.doc idx }
    let s3 :=
      if blockName ∈ s2.toolsWithDataCheck then
        { s2 with customToolsInternalState := aerase s2.customToolsInternalState blockId }
      else s2
    (s3, [.suppress blockId .blockRemoved, .mutate blockId .blockRemoved])
  | .blockSelectionChange blockId _ =>
    let s1 := addBlockToIgnorelist s blockId .blockSelectionChange
    -- the class toggle is the DOM mutation the redactor observer sees
    (s1, [.suppress blockId .blockSelectionChange,
          .mutate blockId .blockSelectionChange])
  | .blockDeletionChange blockId _ =>
    let s1 := addBlockToIgnorelist s blockId .blockDeletionChange
    (s1, [.suppress blockId .blockDeletionChange,
          .mutate blockId .blockDeletionChange])
  | .blockLocked blockId connId =>
    if s.lockedBlocks.any (fun b => b.blockId = blockId) then (s, [])
    else
      let s1 := { s with lockedBlocks := s.lockedBlocks ++ [⟨blockId, connId⟩] }
      let s2 := addBlockToIgnorelist s1 blockId .blockChanged
      (s2, [.suppress blockId .blockChanged])
  | .blockUnlocked blockId connId =>
    let s1 := { s with lockedBlocks :=
        s.lockedBlocks.filter fun b => ¬(b.blockId = blockId ∧ b.connectionId = connId) }
    let s2 := addBlockToIgnorelist s1 blockId .blockChanged
    (s2, [.suppress blockId .blockChanged])
  | .userDisconnected connId =>
    ({ s with lockedBlocks := s.lockedBlocks.filter fun b => b.connectionId ≠ connId }, [])

/-- A locally observed block mutation event, as delivered to
`onEditorBlockEvent` after `validateEventDetail`: the affected block
(`target`) plus the kind-specific indices the host surface attaches
(§6 of the spec: an index for add/change/remove, both endpoints for a
move). -/
inductive LocalEvent where
  | added (target : Block) (index : Nat)
  | changed (target : Block) (index : Nat)
  | removed (target : Block) (index : Nat)
  | moved (target : Block) (fromIndex : Nat) (toIndex : Nat)

/-- The affected block of a local event. -/
def LocalEvent.target : LocalEvent → Block
  | .added t _ => t
  | .changed t _ => t
  | .removed t _ => t
  | .moved t _ _ => t

/-- The event kind, as stored in the ignore registry. -/
def LocalEvent.kind : LocalEvent → Events
  | .added _ _ => .blockAdded
  | .changed _ _ => .blockChanged
  | .removed _ _ => .blockRemoved
  | .moved _ _ _ => .blockMoved

/-- The foreign-lock test of `onEditorBlockEvent`:
`lockedBlocks.some(b => b.blockId === targetId && b.connectionId !== this.socket.connectionId)`. -/
def isBlockLocked (s : CollabState) (targetId : String) : Bool :=
  s.lockedBlocks.any fun b => b.blockId = targetId ∧ b.connectionId ≠ s.connectionId

/-- `onEditorBlockEvent`: handle one locally observed block mutation.
`saveResult` is the value of `await target.save()` (a `SavedData`, or
`none` when the tool has nothing to persist); the handler awaits it once
in the noisy-tool gate and once in the deferred emission, and within one
pass the snapshot is the same. The trace records sends, idle-unlock
timer resets and the hand-off of content changes to the throttle; the
handler itself never mutates the document. -/
def onEditorBlockEvent (s : CollabState) (ev : LocalEvent) (saveResult : Option Block) :
    CollabState × List Act :=
  let targetId := ev.target.id
  if (targetId, ev.kind) ∈ s.ignoreEvents then (s, [])
  else if isBlockLocked s targetId then (s, [])
  else
    let shouldInternal := ev.target.tool ∈ s.toolsWithDataCheck
    match ev with
    | .changed _ index =>
      -- the noisy-tool false-alarm gate, then the lock state machine
      let gate : Option CollabState :=
        if shouldInternal then
          match saveResult with
          | none => none
          | some sd =>
            let newTD : ToolData := ⟨sd.data, sd.tunes⟩
            let hasSame :=
              match alookup s.customToolsInternalState targetId with
              | some old => compareToolsData old newTD
              | none => false
            if hasSame = true ∧ s.currentEditorLockingBlockId ≠ some targetId then none
            else
              some { s with customToolsInternalState := aupdate s.customToolsInternalState targetId newTD }
        else some s
      match gate with
      | none => (s, [])
      | some s1 =>
        if s1.currentEditorLockingBlockId = some targetId then
          (s1, [.resetUnlockTimer targetId, .throttleCall targetId index])
        else
          ({ s1 with currentEditorLockingBlockId := some targetId },
           [.send (.blockLocked targetId s.connectionId), .resetUnlockTimer targetId,
            .throttleCall targetId index])
    | .added _ index =>
      match saveResult with
      | none => (s, [])
      | some sd =>
        let s1 :=
          if shouldInternal then
            { s with customToolsInternalState :=
                aupdate s.customToolsInternalState targetId ⟨sd.data, sd.tunes⟩ }
          else s
        (s1, [.send (.blockAdded index sd)])
    | .removed _ _ =>
      match saveResult with
      | none => (s, [])
      | some _ =>
        let s1 :=
          if shouldInternal then
            { s with customToolsInternalState := aerase s.customToolsInternalState targetId }
          else s
        (s1, [.send (.blockRemoved targetId)])
    | .moved _ fromIndex toIndex =>
      match saveResult with
      | none => (s, [])
      | some _ =>
        (s, [.send (.blockMoved targetId ((s.doc.get? fromIndex).map Block.id) toIndex)])

/-- `handleMutation` (the redactor mutation observer), restricted to the
selection branch that is live in the source: compare the stored
`localBlockStates` flag with the observed class, and on a difference
either bail out on a suppression entry or update the flag and broadcast.
A missing stored entry compares as different from both observed values
(`undefined != isSelected` is true for either boolean). -/
def handleMutation (s : CollabState) (blockId : String) (isSelected : Bool) :
    CollabState × List Act :=
  let stored := (alookup s.localBlockStates blockId).map (fun fl => fl.contains "selected")
  if stored ≠ some isSelected then
    if (blockId, Events.blockSelectionChange) ∈ s.ignoreEvents then (s, [])
    else
      let fl := (alookup s.localBlockStates blockId).getD []
      let fl1 := if isSelected then "selected" :: fl.erase "selected" else fl.erase "selected"
      let ls1 := aupdate s.localBlockStates blockId fl1
      let ls2 := if fl1.isEmpty then aerase ls1 blockId else ls1
      ({ s with localBlockStates := ls2 },
       [.send (.blockSelectionChange blockId isSelected)])
  else
    let fl := (alookup s.localBlockStates blockId).getD []
    let ls2 := if fl.isEmpty then aerase s.localBlockStates blockId else s.localBlockStates
    ({ s with localBlockStates := ls2 }, [])

/-- `handleToolboxMutation`: same shape as `handleMutation` for the
delete-pending flag of the current block. -/
def handleToolboxMutation (s : CollabState) (blockId : String) (isDeletePending : Bool) :
    CollabState × List Act :=
  let stored := (alookup s.localBlockStates blockId).map (fun fl => fl.contains "deleting")
  if stored ≠ some isDeletePending then
    if (blockId, Events.blockDeletionChange) ∈ s.ignoreEvents then (s, [])
    else
      let fl := (alookup s.localBlockStates blockId).getD []
      let fl1 := if isDeletePending then "deleting" :: fl.erase "deleting" else fl.erase "deleting"
      let ls1 := aupdate s.localBlockStates blockId fl1
      ({ s with localBlockStates := ls1 },
       [.send (.blockDeletionChange blockId isDeletePending)])
  else (s, [])

/-- Every `mutate` in the trace is preceded by a `suppress` for the same
unit and kind (`seen` carries the suppression entries registered so
far). -/
def mutatesSuppressed : List (String × Events) → List Act → Prop
  | _, [] => True
  | seen, .suppress u k :: rest => mutatesSuppressed ((u, k) :: seen) rest
  | seen, .mutate u k :: rest => (u, k) ∈ seen ∧ mutatesSuppressed seen rest
  | seen, .send _ :: rest => mutatesSuppressed seen rest
  | seen, .resetUnlockTimer _ :: rest => mutatesSuppressed seen rest
  | seen, .throttleCall _ _ :: rest => mutatesSuppressed seen rest

/-- The state of one `throttle(delay, callback)` wrapper from the
`throttle-debounce` package with its default options (`noLeading: false`,
`noTrailing: false`, `debounceMode: undefined`), the configuration
`setupThrottledListeners` uses for `throttledBlockChange`:
`lastExec` is the time of the last execution (initially 0) and `pending`
is the live trailing timer, holding its fire time and the arguments of
the most recent call. -/
structure ThrottleState (α : Type) where
  lastExec : Nat
  pending : Option (Nat × α)

/-- The wrapper's initial state (`lastExec = 0`, no timer). -/
def throttleInit {α : Type} : ThrottleState α := ⟨0, none⟩

/-- One invocation of the throttle wrapper at time `now`. The event loop
first fires a pending trailing timer that was due strictly before `now`
(its `exec` sets `lastExec` to the fire time); then the wrapper computes
`elapsed = now - lastExec`, clears any still-pending timer, and either
executes immediately (`elapsed > delay`, the leading edge) or re-arms the
trailing timer for `now + (delay - elapsed)` with the new arguments.
Returns the new state and the executions `(time, argument)` performed. -/
def throttleCall {α : Type} (delay : Nat) (s : ThrottleState α) (now : Nat) (a : α) :
    ThrottleState α × List (Nat × α) :=
  let fired : ThrottleState α × List (Nat × α) :=
    match s.pending with
    | some (ft, pa) => if ft < now then (⟨ft, none⟩, [(ft, pa)]) else (s, [])
    | none => (s, [])
  let s1 := fired.1
  let elapsed := now - s1.lastExec
  if delay < elapsed then
    (⟨now, none⟩, fired.2 ++ [(now, a)])
  else
    (⟨s1.lastExec, some (now + (delay - elapsed), a)⟩, fired.2)

/-- Run the throttle wrapper over a time-ordered list of calls; once the
calls stop, a still-armed trailing timer fires. Returns every execution
`(time, argument)` in order. -/
def throttleRun {α : Type} (delay : Nat) (s : ThrottleState α) :
    List (Nat × α) → List (Nat × α)
  | [] =>
    match s.pending with
    | some (ft, pa) => [(ft, pa)]
    | none => []
  | (now, a) :: rest =>
    let r := throttleCall delay s now a
    r.2 ++ throttleRun delay r.1 rest

/-- A heap of lease objects, for the aliasing-sensitive `lockedBlocks`
accessors: JavaScript object references become addresses into an
allocation-ordered store. -/
structure LeaseHeap where
  mem : List (Nat × LockedBlock)
  next : Nat

/-- Allocate a fresh lease object (the spread copy `{ ...b }`). -/
def hAlloc (h : LeaseHeap) (v : LockedBlock) : LeaseHeap × Nat :=
  (⟨(h.next, v) :: h.mem, h.next + 1⟩, h.next)

/-- First-match store lookup. -/
def memRead : List (Nat × LockedBlock) → Nat → Option LockedBlock
  | [], _ => none
  | (k, v) :: rest, a => if k = a then some v else memRead rest a

/-- Read a lease object. -/
def hRead (h : LeaseHeap) (a : Nat) : Option LockedBlock :=
  memRead h.mem a

/-- Mutate the lease object at an address (a caller writing a field of an
object it obtained). -/
def hWrite (h : LeaseHeap) (a : Nat) (v : LockedBlock) : LeaseHeap :=
  { h with mem := h.mem.map fun p => if p.1 = a then (a, v) else p }

/-- The `lockedBlocks` getter: `this._lockedBlocks.map(b => ({ ...b }))` —
read each internally held lease and return a fresh array of freshly
allocated copies. -/
def lockedBlocksGet (h : LeaseHeap) : List Nat → LeaseHeap × List Nat
  | [] => (h, [])
  | a :: rest =>
    let v := (hRead h a).getD ⟨"", ""⟩
    let r1 := hAlloc h v
    let r2 := lockedBlocksGet r1.1 rest
    (r2.1, r1.2 :: r2.2)

/-- The `lockedBlocks` setter: `this._lockedBlocks = value.map(b => ({ ...b }))`
— copy each caller-supplied lease into a freshly allocated object and
hold the copies. (The subsequent `renderLockedBlocks` call is DOM-only.) -/
def lockedBlocksSet (h : LeaseHeap) : List Nat → LeaseHeap × List Nat
  | [] => (h, [])
  | a :: rest =>
    let v := (hRead h a).getD ⟨"", ""⟩
    let r1 := hAlloc h v
    let r2 := lockedBlocksSet r1.1 rest
    (r2.1, r1.2 :: r2.2)

/-- Validity of an address set against a heap: every address was
allocated before the heap's high-water mark. -/
def addrsValid (h : LeaseHeap) (addrs : List Nat) : Prop :=
  ∀ a ∈ addrs, a < h.next

/-! Helper lemmas about the embedded host-surface operations. -/

theorem getBlockIndex_eq_none (d : Doc) (i : String) :
    getBlockIndex d i = none ↔ ∀ b ∈ d, b.id ≠ i := by
  induction d with
  | nil => simp [getBlockIndex]
  | cons b bs ih =>
    by_cases hb : b.id = i
    · simp [getBlockIndex, hb]
    · simp [getBlockIndex, hb, ih]

theorem getBlockIndex_some (d : Doc) (i : String) (n : Nat)
    (h : getBlockIndex d i = some n) :
    n < d.length ∧ ∃ b, d.get? n = some b ∧ b.id = i := by
  induction d generalizing n with
  | nil => simp [getBlockIndex] at h
  | cons b bs ih =>
    by_cases hb : b.id = i
    · simp [getBlockIndex, hb] at h
      subst h
      exact ⟨by simp, b, rfl, hb⟩
    · simp [getBlockIndex, hb] at h
      obtain ⟨m, hm, rfl⟩ := h
      obtain ⟨hlt, c, hc, hci⟩ := ih m hm
      exact ⟨by simpa using hlt, c, by simpa using hc, hci⟩

theorem countById_pos_of_getBlockIndex (d : Doc) (i : String) (n : Nat)
    (h : getBlockIndex d i = some n) : 1 ≤ countById d i := by
  obtain ⟨-, b, hb, hbi⟩ := getBlockIndex_some d i n h
  have hmem : b ∈ d := by
    have := List.get?_eq_some.mp hb
    obtain ⟨hn, rfl⟩ := this
    exact List.get_mem d n hn
  have : b ∈ d.filter (fun c => c.id = i) := by
    simp [List.mem_filter, hmem, hbi]
  have := List.length_pos.mpr (List.ne_nil_of_mem this)
  simpa [countById] using this

theorem countById_eq_zero (d : Doc) (i : String) :
    countById d i = 0 ↔ ∀ b ∈ d, b.id ≠ i := by
  simp [countById, List.length_eq_zero, List.filter_eq_nil]

theorem getBlockIndex_eq_none_of_countById (d : Doc) (i : String)
    (h : countById d i = 0) : getBlockIndex d i = none :=
  (getBlockIndex_eq_none d i).mpr ((countById_eq_zero d i).mp h)

theorem countById_spliceRemove (d : Doc) (i : String) (n : Nat)
    (h : getBlockIndex d i = some n) :
    countById (spliceRemove d n) i = countById d i - 1 := by
  induction d generalizing n with
  | nil => simp [getBlockIndex] at h
  | cons b bs ih =>
    by_cases hb : b.id = i
    · simp [getBlockIndex, hb] at h
      subst h
      simp [spliceRemove, countById, List.filter, hb]
    · simp [getBlockIndex, hb] at h
      obtain ⟨m, hm, rfl⟩ := h
      have := ih m hm
      have hpos := countById_pos_of_getBlockIndex bs i m hm
      simp [spliceRemove, countById, List.filter, hb] at this ⊢
      omega

theorem spliceRemove_length (d : Doc) (n : Nat) (h : n < d.length) :
    (spliceRemove d n).length = d.length - 1 := by
  induction d generalizing n with
  | nil => simp at h
  | cons b bs ih =>
    cases n with
    | zero => simp [spliceRemove]
    | succ m =>
      have hm : m < bs.length := by simpa using h
      have := ih m hm
      simp [spliceRemove, this]
      omega

theorem getBlockIndex_spliceInsert (l : Doc) (k : Nat) (b : Block) (i : String)
    (hcnt : countById l i = 0) (hb : b.id = i) (hk : k ≤ l.length) :
    getBlockIndex (spliceInsert l k b) i = some k := by
  induction l generalizing k with
  | nil =>
    have hk0 : k = 0 := Nat.le_zero.mp (by simpa using hk)
    subst hk0
    simp [spliceInsert, getBlockIndex, hb]
  | cons x xs ih =>
    have hx : x.id ≠ i := by
      have := (countById_eq_zero _ i).mp hcnt
      exact this x (by simp)
    have hxs : countById xs i = 0 := by
      simp [countById, List.filter, hx] at hcnt ⊢
      simpa [countById] using hcnt
    cases k with
    | zero => simp [spliceInsert, getBlockIndex, hb]
    | succ m =>
      have hm : m ≤ xs.length := by simpa using hk
      simp [spliceInsert, getBlockIndex, hx, ih m hxs hm]

theorem spliceInsert_length (l : Doc) (k : Nat) (b : Block) :
    (spliceInsert l k b).length = l.length + 1 := by
  induction l generalizing k with
  | nil => cases k <;> simp [spliceInsert]
  | cons x xs ih =>
    cases k with
    | zero => simp [spliceInsert]
    | succ m => simp [spliceInsert, ih]

theorem spliceInsert_get_min (l : Doc) (k : Nat) (b : Block) :
    (spliceInsert l k b).get? (min k l.length) = some b := by
  induction l generalizing k with
  | nil => cases k <;> simp [spliceInsert]
  | cons x xs ih =>
    cases k with
    | zero => simp [spliceInsert]
    | succ m =>
      have h2 := ih m
      have hmin : min (m + 1) (xs.length + 1) = min m xs.length + 1 := by omega
      simp [spliceInsert, List.length_cons, hmin] at h2 ⊢
      exact h2

theorem countById_spliceInsert_self (l : Doc) (k : Nat) (b : Block) :
    countById (spliceInsert l k b) b.id = countById l b.id + 1 := by
  induction l generalizing k with
  | nil => cases k <;> simp [spliceInsert, countById, List.filter]
  | cons x xs ih =>
    cases k with
    | zero => simp [spliceInsert, countById, List.filter]
    | succ m =>
      by_cases hx : x.id = b.id
      · simp [spliceInsert, countById, List.filter, hx] at ih ⊢
        simpa [countById] using ih m
      · simp [spliceInsert, countById, List.filter, hx] at ih ⊢
        simpa [countById] using ih m

/-! Shape lemmas for `onReceiveChange`: the document component of each
structural case. -/

theorem onReceiveChange_blockRemoved_doc (s : CollabState) (i : String) :
    (onReceiveChange s (.blockRemoved i)).1.doc =
      blocksDelete s.doc (getBlockIndex s.doc i) := by
  simp only [onReceiveChange, addBlockToIgnorelist]
  split <;> rfl

theorem onReceiveChange_blockRemoved_tools (s : CollabState) (i : String) :
    (onReceiveChange s (.blockRemoved i)).1.toolsWithDataCheck = s.toolsWithDataCheck := by
  simp only [onReceiveChange, addBlockToIgnorelist]
  split <;> rfl

theorem onReceiveChange_blockAdded_doc (s : CollabState) (idx : Nat) (b : Block) :
    (onReceiveChange s (.blockAdded idx b)).1.doc = spliceInsert s.doc idx b := by
  simp only [onReceiveChange, addBlockToIgnorelist]
  split <;> rfl

theorem onReceiveChange_blockMoved_doc (s : CollabState) (f : String)
    (t : Option String) (k : Nat) :
    (onReceiveChange s (.blockMoved f t k)).1.doc =
      if getBlockIndex s.doc f = some k then s.doc
      else blocksMove s.doc (t.bind (getBlockIndex s.doc)) (getBlockIndex s.doc f) := by
  simp only [onReceiveChange, addBlockToIgnorelist]
  split <;> simp_all

/-! Sample data used by the concrete runs below. -/

def sampleBlock (i : String) (d : JVal) : Block := ⟨i, "paragraph", d, .null⟩

def sampleState (d : Doc) : CollabState := ⟨d, [], [], none, [], [], ["table"], "C1"⟩

/-- C2. The spec's self-healing change is not what the code does: when a
`block-changed` message arrives for an id that is absent from the local
document, `onReceiveChange` hits the early `if (!blockApi) return` guard
before `editor.blocks.update`, so the documented fallback insertion (the
`catch` branch, and the `index` field carried "in case block.id is not
found") is unreachable and the document is left unchanged, while the
claim requires the same result as applying `block-added{index, unit}`.
Run at the failing input: document `[A, P]`, message
`block-changed{id "X", data "hi", index 2}`. -/
theorem selfHealingChange_codeEval :
    (onReceiveChange
        (sampleState [sampleBlock "A" (.str "a"), sampleBlock "P" (.str "p")])
        (.blockChanged 2 (sampleBlock "X" (.str "hi")))).1.doc.map Block.id = ["A", "P"] ∧
    (onReceiveChange
        (sampleState [sampleBlock "A" (.str "a"), sampleBlock "P" (.str "p")])
        (.blockAdded 2 (sampleBlock "X" (.str "hi")))).1.doc.map Block.id = ["A", "P", "X"] := by
  constructor <;> rfl

/-- C4. Lock exclusivity: while some lease on the target unit is held by a
connection other than the local one, a locally observed edit event of any
kind on that unit produces no outbound message and leaves the engine
state (document included) untouched: `onEditorBlockEvent` returns before
reaching either the lock broadcast or the deferred emission. -/
theorem lockExclusivity (s : CollabState) (ev : LocalEvent) (save : Option Block)
    (c : String) (hmem : (⟨ev.target.id, c⟩ : LockedBlock) ∈ s.lockedBlocks)
    (hne : c ≠ s.connectionId) :
    onEditorBlockEvent s ev save = (s, []) := by
  have hlock : isBlockLocked s ev.target.id = true := by
    simp only [isBlockLocked, List.any_eq_true]
    exact ⟨⟨ev.target.id, c⟩, hmem, by simp [hne]⟩
  by_cases hig : (ev.target.id, ev.kind) ∈ s.ignoreEvents
  · simp [onEditorBlockEvent, hig]
  · simp [onEditorBlockEvent, hig, hlock]

/-- C4 witness: a unit locked by connection `"C2"` while we are `"C1"`;
the edit event is dropped whole. -/
theorem lockExclusivity_witness :
    onEditorBlockEvent
        ⟨[sampleBlock "U" .null], [], [⟨"U", "C2"⟩], none, [], [], ["table"], "C1"⟩
        (.changed (sampleBlock "U" .null) 0) none =
      (⟨[sampleBlock "U" .null], [], [⟨"U", "C2"⟩], none, [], [], ["table"], "C1"⟩, []) :=
  lockExclusivity _ _ _ "C2" (by simp [LocalEvent.target, sampleBlock]) (by decide)

/-- C5 counterexample: the `block-added` case of `onReceiveChange` has no
duplicate-id check — it inserts unconditionally — so applying the same
`block-added{index 0, unit X}` message twice to an empty document yields
two units with id `"X"`, refuting both the claimed fallback to
`unit-changed` and the claimed impossibility of duplicate ids. -/
theorem duplicateAdd_counterexample :
    countById
      (onReceiveChange
        ((onReceiveChange (sampleState []) (.blockAdded 0 (sampleBlock "X" (.str "hi")))).1)
        (.blockAdded 0 (sampleBlock "X" (.str "hi")))).1.doc "X" = 2 := by
  rfl

/-- C5 amended: an incoming `block-added{index, unit}` always inserts the
unit at `index` clamped to the current document length (JavaScript
`splice` semantics inside the host surface), performing no duplicate-id
check, so each application grows the document by one and increases the
number of units carrying the unit's id by one. -/
theorem duplicateAdd_amended (s : CollabState) (idx : Nat) (b : Block) :
    (onReceiveChange s (.blockAdded idx b)).1.doc.length = s.doc.length + 1 ∧
    countById (onReceiveChange s (.blockAdded idx b)).1.doc b.id =
      countById s.doc b.id + 1 ∧
    (onReceiveChange s (.blockAdded idx b)).1.doc.get? (min idx s.doc.length) = some b := by
  rw [onReceiveChange_blockAdded_doc]
  exact ⟨spliceInsert_length _ _ _, countById_spliceInsert_self _ _ _,
    spliceInsert_get_min _ _ _⟩

/-- C6. Remove idempotence: under the spec's document invariant (at most
one unit per id), applying `block-removed{id}` when the id is absent
leaves the document unchanged (the by-id index lookup fails and the
delete call degrades to a no-op), and applying the same message twice in
a row leaves the same document as applying it once. -/
theorem removeIdempotent (s : CollabState) (i : String) (h : countById s.doc i ≤ 1) :
    (getBlockIndex s.doc i = none → (onReceiveChange s (.blockRemoved i)).1.doc = s.doc) ∧
    (onReceiveChange (onReceiveChange s (.blockRemoved i)).1 (.blockRemoved i)).1.doc =
      (onReceiveChange s (.blockRemoved i)).1.doc := by
  constructor
  · intro hnone
    rw [onReceiveChange_blockRemoved_doc, hnone]
    rfl
  · rw [onReceiveChange_blockRemoved_doc, onReceiveChange_blockRemoved_doc]
    cases hfind : getBlockIndex s.doc i with
    | none => simp [blocksDelete, hfind]
    | some n =>
      have h1 : 1 ≤ countById s.doc i := countById_pos_of_getBlockIndex s.doc i n hfind
      have hz : countById (spliceRemove s.doc n) i = 0 := by
        have := countById_spliceRemove s.doc i n hfind
        omega
      have hnone2 : getBlockIndex (spliceRemove s.doc n) i = none :=
        getBlockIndex_eq_none_of_countById _ _ hz
      simp [blocksDelete, hnone2]

/-- C6 witness: removing an absent id from `[P]` is a no-op. -/
theorem removeIdempotent_witness :
    (onReceiveChange (sampleState [sampleBlock "P" (.str "p")]) (.blockRemoved "A")).1.doc =
      (sampleState [sampleBlock "P" (.str "p")]).doc :=
  (removeIdempotent (sampleState [sampleBlock "P" (.str "p")]) "A" (by decide)).1 rfl

/-- C7 counterexample: the skip condition compares the message's
`toBlockIndex` (the sender-side index) with the local index of
`fromBlockId`, but the move itself places the unit at the local index of
`toBlockId`, so after one application the unit need not sit at
`toBlockIndex` and a duplicate delivery moves it again. Concretely, on
`[A, P, Q, R]` the message `block-moved{from A, to P, toIndex 3}` first
produces `[P, A, Q, R]` and its duplicate then produces `[A, P, Q, R]`:
the second application is not a no-op. -/
theorem moveConvergence_counterexample :
    (onReceiveChange
        (onReceiveChange
          (sampleState [sampleBlock "A" .null, sampleBlock "P" .null,
            sampleBlock "Q" .null, sampleBlock "R" .null])
          (.blockMoved "A" (some "P") 3)).1
        (.blockMoved "A" (some "P") 3)).1.doc.map Block.id = ["A", "P", "Q", "R"] ∧
    (onReceiveChange
        (sampleState [sampleBlock "A" .null, sampleBlock "P" .null,
          sampleBlock "Q" .null, sampleBlock "R" .null])
        (.blockMoved "A" (some "P") 3)).1.doc.map Block.id = ["P", "A", "Q", "R"] :=
  ⟨rfl, rfl⟩

/-- C7 amended: if the local index of `fromUnitId` already equals
`toIndex`, the message is skipped and the whole state is untouched; and
the duplicate-delivery application is a no-op on the document provided
the replica was in sync with the sender on the target position when the
first copy arrived — the local index of `toUnitId` equals `toIndex` —
and ids are not duplicated. Without that proviso a duplicate may move
the unit again. -/
theorem moveConvergence_amended (s : CollabState) (f t : String) (k : Nat)
    (hsync : getBlockIndex s.doc t = some k)
    (hcnt : countById s.doc f ≤ 1) :
    (getBlockIndex s.doc f = some k →
      onReceiveChange s (.blockMoved f (some t) k) = (s, [])) ∧
    (onReceiveChange (onReceiveChange s (.blockMoved f (some t) k)).1
        (.blockMoved f (some t) k)).1.doc =
      (onReceiveChange s (.blockMoved f (some t) k)).1.doc := by
  have hskip : ∀ s1 : CollabState, getBlockIndex s1.doc f = some k →
      onReceiveChange s1 (.blockMoved f (some t) k) = (s1, []) := by
    intro s1 h1
    simp [onReceiveChange, h1]
  refine ⟨hskip s, ?_⟩
  by_cases hf : getBlockIndex s.doc f = some k
  · rw [hskip s hf]
    rw [hskip s hf]
  · rw [onReceiveChange_blockMoved_doc (onReceiveChange s (.blockMoved f (some t) k)).1]
    have hdoc1 : (onReceiveChange s (.blockMoved f (some t) k)).1.doc =
        blocksMove s.doc (getBlockIndex s.doc t) (getBlockIndex s.doc f) := by
      rw [onReceiveChange_blockMoved_doc]
      simp [hf]
    cases hFrom : getBlockIndex s.doc f with
    | none =>
      have hmv : blocksMove s.doc (getBlockIndex s.doc t) none = s.doc := by
        cases getBlockIndex s.doc t <;> rfl
      rw [hdoc1, hFrom, hmv, if_neg hf]
      simp only [Option.bind]
      rw [hFrom, hmv]
    | some iA =>
      obtain ⟨hlenA, bA, hgetA, hidA⟩ := getBlockIndex_some s.doc f iA hFrom
      obtain ⟨hlenT, bT, hgetT, hidT⟩ := getBlockIndex_some s.doc t k hsync
      have h1 : 1 ≤ countById s.doc f := countById_pos_of_getBlockIndex s.doc f iA hFrom
      have hz : countById (spliceRemove s.doc iA) f = 0 := by
        have := countById_spliceRemove s.doc f iA hFrom
        omega
      have hk1 : k ≤ (spliceRemove s.doc iA).length := by
        rw [spliceRemove_length s.doc iA hlenA]
        omega
      have hgetA2 : s.doc[iA]? = some bA := by
        rw [← List.get?_eq_getElem?]
        exact hgetA
      have hmove : blocksMove s.doc (some k) (some iA) =
          spliceInsert (spliceRemove s.doc iA) k bA := by
        simp [blocksMove, hgetA2]
      have hfind1 : getBlockIndex (blocksMove s.doc (some k) (some iA)) f = some k := by
        rw [hmove]
        exact getBlockIndex_spliceInsert _ _ _ _ hz hidA hk1
      rw [hdoc1, hFrom, hsync]
      rw [if_pos hfind1]

/-- C7 witness: on `[P, A]`, the in-sync duplicate of
`block-moved{from A, to P, toIndex 0}` leaves the document where the
first application put it. -/
theorem moveConvergence_witness :
    (onReceiveChange
        (onReceiveChange (sampleState [sampleBlock "P" .null, sampleBlock "A" .null])
          (.blockMoved "A" (some "P") 0)).1
        (.blockMoved "A" (some "P") 0)).1.doc =
      (onReceiveChange (sampleState [sampleBlock "P" .null, sampleBlock "A" .null])
        (.blockMoved "A" (some "P") 0)).1.doc :=
  (moveConvergence_amended (sampleState [sampleBlock "P" .null, sampleBlock "A" .null])
    "A" "P" 0 rfl (by decide)).2

/-! Unfolding lemmas for the throttle machine. -/

theorem throttleRun_cons {α : Type} (delay : Nat) (s : ThrottleState α) (now : Nat) (a : α)
    (rest : List (Nat × α)) :
    throttleRun delay s ((now, a) :: rest) =
      (throttleCall delay s now a).2 ++ throttleRun delay (throttleCall delay s now a).1 rest := by
  simp [throttleRun]

theorem throttleRun_nil_some {α : Type} (delay le ft : Nat) (p : α) :
    throttleRun delay ⟨le, some (ft, p)⟩ [] = [(ft, p)] := rfl

theorem throttleCall_leading {α : Type} (delay le now : Nat) (a : α)
    (h : delay < now - le) :
    throttleCall delay ⟨le, none⟩ now a = (⟨now, none⟩, [(now, a)]) := by
  simp [throttleCall, h]

theorem throttleCall_rearm_none {α : Type} (delay le now : Nat) (a : α)
    (h : ¬ delay < now - le) :
    throttleCall delay ⟨le, none⟩ now a =
      (⟨le, some (now + (delay - (now - le)), a)⟩, []) := by
  simp [throttleCall, h]

theorem throttleCall_rearm {α : Type} (delay le now ft : Nat) (p a : α)
    (hft : ¬ ft < now) (h : ¬ delay < now - le) :
    throttleCall delay ⟨le, some (ft, p)⟩ now a =
      (⟨le, some (now + (delay - (now - le)), a)⟩, []) := by
  simp [throttleCall, hft, h]

/-- C3 counterexample: with the `throttle-debounce` package's default
options (used by `setupThrottledListeners`), the wrapper also executes on
the **leading** edge. Five calls at 1000, 1050, 1100, 1200 and 1290 ms
with a 300 ms window, starting idle, produce **two** executions — one at
1000 with the first call's argument and one at 1300 with the last call's
— not the single trailing emission the claim states. -/
theorem throttleCoalescing_counterexample :
    throttleRun 300 (throttleInit (α := Nat))
        [(1000, 1), (1050, 2), (1100, 3), (1200, 4), (1290, 5)] =
      [(1000, 1), (1300, 5)] ∧
    (throttleRun 300 (throttleInit (α := Nat))
        [(1000, 1), (1050, 2), (1100, 3), (1200, 4), (1290, 5)]).length ≠ 1 := by
  decide

/-- C3 amended: for five content edits to one unit within one throttle
window, starting from an idle throttle, the pipeline emits exactly two
messages: a leading one at the first edit and a trailing one at the end
of the window carrying the last edit's closure — and since
`throttledBlockChange` snapshots (`target.save()`) at execution time,
each emission carries the snapshot current at its own emission time, so
the final message carries the latest (E5) snapshot and no older snapshot
is ever emitted after a newer one. -/
theorem throttleCoalescing_amended {α : Type} (delay t0 t1 t2 t3 t4 : Nat)
    (a0 a1 a2 a3 a4 : α)
    (h0 : delay < t0) (h01 : t0 < t1) (h12 : t1 < t2) (h23 : t2 < t3) (h34 : t3 < t4)
    (h4 : t4 < t0 + delay) :
    throttleRun delay throttleInit [(t0, a0), (t1, a1), (t2, a2), (t3, a3), (t4, a4)] =
      [(t0, a0), (t0 + delay, a4)] := by
  have e1 : t1 + (delay - (t1 - t0)) = t0 + delay := by omega
  have e2 : t2 + (delay - (t2 - t0)) = t0 + delay := by omega
  have e3 : t3 + (delay - (t3 - t0)) = t0 + delay := by omega
  have e4 : t4 + (delay - (t4 - t0)) = t0 + delay := by omega
  show throttleRun delay ⟨0, none⟩ _ = _
  rw [throttleRun_cons, throttleCall_leading delay 0 t0 a0 (by omega)]
  rw [throttleRun_cons, throttleCall_rearm_none delay t0 t1 a1 (by omega), e1]
  rw [throttleRun_cons, throttleCall_rearm delay t0 t2 (t0 + delay) a1 a2 (by omega) (by omega), e2]
  rw [throttleRun_cons, throttleCall_rearm delay t0 t3 (t0 + delay) a2 a3 (by omega) (by omega), e3]
  rw [throttleRun_cons, throttleCall_rearm delay t0 t4 (t0 + delay) a3 a4 (by omega) (by omega), e4]
  rw [throttleRun_nil_some]
  simp

/-- C3 witness: the two-emission shape at concrete times 400…690 with a
300 ms window. -/
theorem throttleCoalescing_witness :
    throttleRun 300 throttleInit [(400, 10), (450, 11), (500, 12), (600, 13), (690, 14)] =
      [(400, 10), (400 + 300, 14)] :=
  throttleCoalescing_amended 300 400 450 500 600 690 10 11 12 13 14
    (by decide) (by decide) (by decide) (by decide) (by decide) (by decide)

/-- C8. Lock refresh without re-broadcast: when the engine already holds
the soft lock for the edited unit (`_currentEditorLockingBlockId` equals
the target id), a further local content edit only resets the per-unit
debounced idle-unlock timer and hands the snapshot to the throttle — it
sends nothing, in particular no second `block-locked`; and a
`block-locked` broadcast can appear in the trace only when the unit was
not already locked by self (the transition branch). The hypothesis
`hsave` says the edit's snapshot is available when the noisy-tool gate
needs one. -/
theorem lockRefresh (s : CollabState) (target : Block) (idx : Nat) (save : Option Block)
    (hig : (target.id, Events.blockChanged) ∉ s.ignoreEvents)
    (hlk : isBlockLocked s target.id = false)
    (hsave : target.tool ∈ s.toolsWithDataCheck → ∃ sd, save = some sd) :
    (s.currentEditorLockingBlockId = some target.id →
      (onEditorBlockEvent s (.changed target idx) save).2 =
        [.resetUnlockTimer target.id, .throttleCall target.id idx]) ∧
    (∀ c, Act.send (.blockLocked target.id c) ∈
        (onEditorBlockEvent s (.changed target idx) save).2 →
      s.currentEditorLockingBlockId ≠ some target.id) := by
  have htrace : s.currentEditorLockingBlockId = some target.id →
      (onEditorBlockEvent s (.changed target idx) save).2 =
        [.resetUnlockTimer target.id, .throttleCall target.id idx] := by
    intro hcur
    by_cases hsi : target.tool ∈ s.toolsWithDataCheck
    · obtain ⟨sd, rfl⟩ := hsave hsi
      simp [onEditorBlockEvent, LocalEvent.target, LocalEvent.kind, hig, hlk, hsi, hcur]
    · simp [onEditorBlockEvent, LocalEvent.target, LocalEvent.kind, hig, hlk, hsi, hcur]
  refine ⟨htrace, ?_⟩
  intro c hc
  intro hcur
  rw [htrace hcur] at hc
  simp at hc

/-- C8 witness: with the lease already held by self for `"U"`, the edit's
trace is exactly the timer reset plus the throttle hand-off. -/
theorem lockRefresh_witness :
    (onEditorBlockEvent ⟨[], [], [], some "U", [], [], ["table"], "C1"⟩
        (.changed (sampleBlock "U" .null) 0) none).2 =
      [.resetUnlockTimer "U", .throttleCall "U" 0] :=
  (lockRefresh ⟨[], [], [], some "U", [], [], ["table"], "C1"⟩ (sampleBlock "U" .null) 0 none
    (by decide) (by decide) (fun h => absurd h (by decide))).1 rfl

/-! Observer silence under a suppression entry (the §4.2 contract). -/

theorem onEditorBlockEvent_ignored (s : CollabState) (ev : LocalEvent) (save : Option Block)
    (h : (ev.target.id, ev.kind) ∈ s.ignoreEvents) :
    onEditorBlockEvent s ev save = (s, []) := by
  simp [onEditorBlockEvent, h]

theorem handleMutation_ignored (s : CollabState) (u : String) (sel : Bool)
    (h : (u, Events.blockSelectionChange) ∈ s.ignoreEvents) :
    sendsOf (handleMutation s u sel).2 = [] := by
  unfold handleMutation
  split
  · dsimp only
    split <;> simp [sendsOf]
  · exact absurd h (by assumption)

theorem handleToolboxMutation_ignored (s : CollabState) (u : String) (del : Bool)
    (h : (u, Events.blockDeletionChange) ∈ s.ignoreEvents) :
    sendsOf (handleToolboxMutation s u del).2 = [] := by
  unfold handleToolboxMutation
  split
  · dsimp only
    split <;> simp [sendsOf]
  · exact absurd h (by assumption)

/-- All local observers that could re-broadcast an event of kind `k` on
unit `u` stay silent in state `s`: the block-event handler drops the
event whole, and the two DOM mutation observers send nothing for their
respective kinds. -/
def observersSilent (s : CollabState) (u : String) (k : Events) : Prop :=
  (∀ ev save, (LocalEvent.target ev).id = u → LocalEvent.kind ev = k →
    onEditorBlockEvent s ev save = (s, [])) ∧
  (k = Events.blockSelectionChange → ∀ sel, sendsOf (handleMutation s u sel).2 = []) ∧
  (k = Events.blockDeletionChange → ∀ del, sendsOf (handleToolboxMutation s u del).2 = [])

theorem observersSilent_of_ignored (s : CollabState) (u : String) (k : Events)
    (h : (u, k) ∈ s.ignoreEvents) : observersSilent s u k := by
  refine ⟨fun ev save hid hk => ?_, fun hk sel => ?_, fun hk del => ?_⟩
  · exact onEditorBlockEvent_ignored s ev save (by rw [hid, hk]; exact h)
  · exact handleMutation_ignored s u sel (hk ▸ h)
  · exact handleToolboxMutation_ignored s u del (hk ▸ h)

/-- C1. Echo-freedom: in every reconciliation pass of `onReceiveChange`,
each host-surface mutating call (each `mutate` in the trace) is preceded
in program order by the registration of a suppression entry for the very
unit and mutation kind it will fire locally, and that entry is still in
the registry when the pass ends; consequently every local observer that
could re-broadcast such an event — `onEditorBlockEvent` for block events,
the two DOM mutation observers for selection/deletion toggles — drops it
and sends nothing, so no message equal to the applied one is re-emitted
within the pass. -/
theorem echoFreedom (s : CollabState) (m : Msg) :
    mutatesSuppressed [] (onReceiveChange s m).2 ∧
    ∀ u k, Act.mutate u k ∈ (onReceiveChange s m).2 →
      (u, k) ∈ (onReceiveChange s m).1.ignoreEvents ∧
      observersSilent (onReceiveChange s m).1 u k := by
  have key : mutatesSuppressed [] (onReceiveChange s m).2 ∧
      ∀ u k, Act.mutate u k ∈ (onReceiveChange s m).2 →
        (u, k) ∈ (onReceiveChange s m).1.ignoreEvents := by
    cases m with
    | blockAdded i b =>
      refine ⟨by simp [onReceiveChange, mutatesSuppressed], fun u k hm => ?_⟩
      simp [onReceiveChange] at hm
      obtain ⟨rfl, rfl⟩ := hm
      simp only [onReceiveChange, addBlockToIgnorelist]
      split <;> simp
    | blockChanged i b =>
      rcases hg : getById s.doc b.id with - | blk
      · refine ⟨by simp [onReceiveChange, hg, mutatesSuppressed], fun u k hm => ?_⟩
        simp [onReceiveChange, hg] at hm
      · rcases hu : blocksUpdate s.doc b.id b.data with - | d1
        · refine ⟨by simp [onReceiveChange, hg, hu, mutatesSuppressed], fun u k hm => ?_⟩
          simp [onReceiveChange, hg, hu] at hm
          obtain ⟨rfl, rfl⟩ := hm
          simp only [onReceiveChange, hg, hu, addBlockToIgnorelist]
          split <;> simp
        · refine ⟨by simp [onReceiveChange, hg, hu, mutatesSuppressed], fun u k hm => ?_⟩
          simp [onReceiveChange, hg, hu] at hm
          obtain ⟨rfl, rfl⟩ := hm
          simp only [onReceiveChange, hg, hu, addBlockToIgnorelist]
          split <;> simp
    | blockRemoved bid =>
      refine ⟨by simp [onReceiveChange, mutatesSuppressed], fun u k hm => ?_⟩
      simp [onReceiveChange] at hm
      obtain ⟨rfl, rfl⟩ := hm
      simp only [onReceiveChange, addBlockToIgnorelist]
      split <;> simp
    | blockMoved f t k0 =>
      by_cases hsync : getBlockIndex s.doc f = some k0
      · refine ⟨by simp [onReceiveChange, hsync, mutatesSuppressed], fun u k hm => ?_⟩
        simp [onReceiveChange, hsync] at hm
      · refine ⟨by simp [onReceiveChange, hsync, mutatesSuppressed], fun u k hm => ?_⟩
        simp [onReceiveChange, hsync] at hm
        obtain ⟨rfl, rfl⟩ := hm
        simp [onReceiveChange, hsync, addBlockToIgnorelist]
    | blockLocked bid c =>
      by_cases hl : s.lockedBlocks.any (fun b => b.blockId = bid)
      · refine ⟨by simp [onReceiveChange, hl, mutatesSuppressed], fun u k hm => ?_⟩
        simp [onReceiveChange, hl] at hm
      · refine ⟨by simp [onReceiveChange, hl, mutatesSuppressed], fun u k hm => ?_⟩
        simp [onReceiveChange, hl] at hm
    | blockUnlocked bid c =>
      refine ⟨by simp [onReceiveChange, mutatesSuppressed], fun u k hm => ?_⟩
      simp [onReceiveChange] at hm
    | blockSelectionChange bid sel =>
      refine ⟨by simp [onReceiveChange, mutatesSuppressed], fun u k hm => ?_⟩
      simp [onReceiveChange] at hm
      obtain ⟨rfl, rfl⟩ := hm
      simp [onReceiveChange, addBlockToIgnorelist]
    | blockDeletionChange bid del =>
      refine ⟨by simp [onReceiveChange, mutatesSuppressed], fun u k hm => ?_⟩
      simp [onReceiveChange] at hm
      obtain ⟨rfl, rfl⟩ := hm
      simp [onReceiveChange, addBlockToIgnorelist]
    | userDisconnected c =>
      refine ⟨by simp [onReceiveChange, mutatesSuppressed], fun u k hm => ?_⟩
      simp [onReceiveChange] at hm
  exact ⟨key.1, fun u k hm =>
    ⟨key.2 u k hm, observersSilent_of_ignored _ u k (key.2 u k hm)⟩⟩

/-- C1 witness: applying `block-added{0, X}` to an empty-document state
registers the suppression entry before the insert fires the local
`block-added` event. -/
theorem echoFreedom_witness :
    Act.mutate "X" Events.blockAdded ∈
      (onReceiveChange (sampleState []) (.blockAdded 0 (sampleBlock "X" (.str "hi")))).2 ∧
    ("X", Events.blockAdded) ∈
      (onReceiveChange (sampleState [])
        (.blockAdded 0 (sampleBlock "X" (.str "hi")))).1.ignoreEvents :=
  ⟨by simp [onReceiveChange, sampleBlock, sampleState],
   ((echoFreedom (sampleState []) (.blockAdded 0 (sampleBlock "X" (.str "hi")))).2
      "X" Events.blockAdded
      (by simp [onReceiveChange, sampleBlock, sampleState])).1⟩

/-! Heap lemmas for the lease accessors. -/

theorem memRead_write_ne (l : List (Nat × LockedBlock)) (a b : Nat) (v : LockedBlock)
    (hne : a ≠ b) :
    memRead (l.map fun p => if p.1 = a then (a, v) else p) b = memRead l b := by
  induction l with
  | nil => rfl
  | cons p rest ih =>
    rcases p with ⟨k, w⟩
    simp only [List.map_cons]
    dsimp only
    by_cases hp : k = a
    · subst hp
      rw [if_pos rfl]
      simp [memRead, hne, ih]
    · rw [if_neg hp]
      simp [memRead, ih]

theorem hRead_hWrite_ne (h : LeaseHeap) (a b : Nat) (v : LockedBlock) (hne : a ≠ b) :
    hRead (hWrite h a v) b = hRead h b :=
  memRead_write_ne h.mem a b v hne

theorem lockedBlocksGet_fresh (l : List Nat) (h : LeaseHeap) :
    (∀ a ∈ (lockedBlocksGet h l).2, h.next ≤ a) ∧ h.next ≤ (lockedBlocksGet h l).1.next := by
  induction l generalizing h with
  | nil => simp [lockedBlocksGet]
  | cons a rest ih =>
    simp only [lockedBlocksGet, hAlloc]
    obtain ⟨ih1, ih2⟩ := ih ⟨(h.next, (hRead h a).getD ⟨"", ""⟩) :: h.mem, h.next + 1⟩
    have ih2a : h.next + 1 ≤
        (lockedBlocksGet ⟨(h.next, (hRead h a).getD ⟨"", ""⟩) :: h.mem, h.next + 1⟩ rest).1.next :=
      ih2
    refine ⟨fun x hx => ?_, by omega⟩
    rcases List.mem_cons.mp hx with hx1 | hx2
    · omega
    · have h3 : h.next + 1 ≤ x := ih1 x hx2
      omega

theorem lockedBlocksSet_eq_get (l : List Nat) (h : LeaseHeap) :
    lockedBlocksSet h l = lockedBlocksGet h l := by
  induction l generalizing h with
  | nil => rfl
  | cons a rest ih => simp [lockedBlocksSet, lockedBlocksGet, hAlloc, ih]

/-- C10. Lease-list encapsulation: the `lockedBlocks` getter returns
freshly allocated copies, so the addresses it hands out are disjoint
from the engine's internal lease addresses and writing through any of
them leaves every internal lease object unchanged; dually, the setter
stores freshly allocated copies of the caller's lease objects, so the
addresses it retains are disjoint from the caller's and writing through
any caller address leaves every stored copy unchanged. -/
theorem leaseEncapsulation (h : LeaseHeap) (internal caller : List Nat)
    (hint : addrsValid h internal) (hcall : addrsValid h caller) :
    (∀ a ∈ (lockedBlocksGet h internal).2, a ∉ internal) ∧
    (∀ a ∈ (lockedBlocksGet h internal).2, ∀ v, ∀ b ∈ internal,
      hRead (hWrite (lockedBlocksGet h internal).1 a v) b =
        hRead (lockedBlocksGet h internal).1 b) ∧
    (∀ a ∈ caller, a ∉ (lockedBlocksSet h caller).2) ∧
    (∀ a ∈ caller, ∀ v, ∀ b ∈ (lockedBlocksSet h caller).2,
      hRead (hWrite (lockedBlocksSet h caller).1 a v) b =
        hRead (lockedBlocksSet h caller).1 b) := by
  have hg := lockedBlocksGet_fresh internal h
  have hgc := lockedBlocksGet_fresh caller h
  rw [lockedBlocksSet_eq_get]
  refine ⟨fun a ha hmem => ?_, fun a ha v b hb => ?_, fun a ha hmem => ?_,
    fun a ha v b hb => ?_⟩
  · have h1 := hg.1 a ha
    have h2 := hint a hmem
    omega
  · have h1 := hg.1 a ha
    have h2 := hint b hb
    exact hRead_hWrite_ne _ a b v (by omega)
  · have h1 := hgc.1 a hmem
    have h2 := hcall a ha
    omega
  · have h1 := hgc.1 b hb
    have h2 := hcall a ha
    exact hRead_hWrite_ne _ a b v (by omega)

/-- C10 witness: with one internal lease at address 0, the getter hands
out address 1 and writing a different lease through it does not change
the internal lease. -/
theorem leaseEncapsulation_witness :
    hRead (hWrite (lockedBlocksGet ⟨[(0, ⟨"U", "C2"⟩)], 1⟩ [0]).1 1 ⟨"V", "C9"⟩) 0 =
      hRead (lockedBlocksGet ⟨[(0, ⟨"U", "C2"⟩)], 1⟩ [0]).1 0 :=
  (leaseEncapsulation ⟨[(0, ⟨"U", "C2"⟩)], 1⟩ [0] [0]
      (by intro a ha; simp at ha; subst ha; decide)
      (by intro a ha; simp at ha; subst ha; decide)).2.1
    1 (by decide) ⟨"V", "C9"⟩ 0 (by decide)

/-! Lemmas for the deep-comparison analysis. -/

theorem jlookup_eq_none_iff (l : List (String × JVal)) (k : String) :
    jlookup k l = none ↔ k ∉ l.map Prod.fst := by
  induction l with
  | nil => simp [jlookup]
  | cons p rest ih =>
    rcases p with ⟨k1, v⟩
    by_cases hk : k1 = k
    · subst hk
      simp [jlookup]
    · simp [jlookup, hk, ih, Ne.symm hk]

theorem jlookup_mem (l : List (String × JVal)) (k : String) (v : JVal)
    (h : jlookup k l = some v) : (k, v) ∈ l := by
  induction l with
  | nil => simp [jlookup] at h
  | cons p rest ih =>
    rcases p with ⟨k1, w⟩
    by_cases hk : k1 = k
    · subst hk
      simp [jlookup] at h
      simp [h]
    · simp [jlookup, hk] at h
      simp [ih h]

theorem jlookup_of_mem_nodup (l : List (String × JVal)) (k : String) (v : JVal)
    (hm : (k, v) ∈ l) (hnd : (l.map Prod.fst).Nodup) :
    jlookup k l = some v := by
  induction l with
  | nil => simp at hm
  | cons p rest ih =>
    rcases p with ⟨k1, w⟩
    simp only [List.map_cons, List.nodup_cons] at hnd
    rcases List.mem_cons.mp hm with h1 | h2
    · have hk1 : k1 = k := by rw [Prod.mk.injEq] at h1; exact h1.1.symm
      have hw : w = v := by rw [Prod.mk.injEq] at h1; exact h1.2.symm
      subst hk1
      subst hw
      simp [jlookup]
    · have hk : k1 ≠ k := by
        intro hkk
        subst hkk
        exact hnd.1 (by simpa using List.mem_map_of_mem Prod.fst h2)
      simp [jlookup, hk, ih h2 hnd.2]

theorem mem_map_fst_iff (l : List (String × JVal)) (k : String) :
    k ∈ l.map Prod.fst ↔ ∃ v, (k, v) ∈ l := by
  constructor
  · intro h
    obtain ⟨p, hp, rfl⟩ := List.mem_map.mp h
    exact ⟨p.2, by simpa using hp⟩
  · rintro ⟨v, hv⟩
    exact List.mem_map_of_mem Prod.fst hv

theorem keyset_iff_of_subset_len (ka kb : List String) (hna : ka.Nodup) (hnb : kb.Nodup)
    (hlen : ka.length = kb.length) (hsub : ∀ k ∈ ka, k ∈ kb) :
    ∀ k, k ∈ ka ↔ k ∈ kb := by
  have h1 : ka.toFinset ⊆ kb.toFinset := by
    intro k hk
    simp only [List.mem_toFinset] at hk ⊢
    exact hsub k hk
  have hca : ka.toFinset.card = ka.length := List.toFinset_card_of_nodup hna
  have hcb : kb.toFinset.card = kb.length := List.toFinset_card_of_nodup hnb
  have heq : ka.toFinset = kb.toFinset :=
    Finset.eq_of_subset_of_card_le h1 (by omega)
  intro k
  constructor
  · intro hk
    have : k ∈ kb.toFinset := heq ▸ List.mem_toFinset.mpr hk
    exact List.mem_toFinset.mp this
  · intro hk
    have : k ∈ ka.toFinset := heq ▸ List.mem_toFinset.mpr hk
    exact List.mem_toFinset.mp this

theorem len_eq_of_keyset_iff (ka kb : List String) (hna : ka.Nodup) (hnb : kb.Nodup)
    (hiff : ∀ k, k ∈ ka ↔ k ∈ kb) : ka.length = kb.length := by
  have heq : ka.toFinset = kb.toFinset := by
    apply Finset.ext
    intro k
    simp only [List.mem_toFinset]
    exact hiff k
  have hca : ka.toFinset.card = ka.length := List.toFinset_card_of_nodup hna
  have hcb : kb.toFinset.card = kb.length := List.toFinset_card_of_nodup hnb
  have hcc : ka.toFinset.card = kb.toFinset.card := by rw [heq]
  omega

theorem mem_arrProps_val (xs : List JVal) (i : Nat) (p : String × JVal)
    (h : p ∈ arrProps i xs) : p.2 ∈ xs := by
  induction xs generalizing i with
  | nil => simp [arrProps] at h
  | cons x rest ih =>
    rcases List.mem_cons.mp h with h1 | h2
    · subst h1
      simp
    · simp [ih (i + 1) h2]

theorem sizeOf_lt_of_mem_props (a : JVal) (p : String × JVal)
    (h : p ∈ props a) : sizeOf p.2 < sizeOf a := by
  cases a with
  | arr xs =>
    simp only [props] at h
    have hx : p.2 ∈ xs := mem_arrProps_val xs 0 p h
    have h2 := List.sizeOf_lt_of_mem hx
    simp only [JVal.arr.sizeOf_spec]
    omega
  | obj kvs =>
    simp only [props] at h
    have h2 := List.sizeOf_lt_of_mem h
    rcases p with ⟨k, v⟩
    simp only [Prod.mk.sizeOf_spec] at h2
    simp only [JVal.obj.sizeOf_spec]
    omega
  | null => simp [props] at h
  | bool c => simp [props] at h
  | num n => simp [props] at h
  | str s => simp [props] at h

theorem WFj.keysNodup {a : JVal} (h : WFj a) : ((props a).map Prod.fst).Nodup := by
  cases h with
  | mk _ h1 _ => exact h1

theorem WFj.child {a : JVal} (h : WFj a) {k : String} {v : JVal}
    (hl : jlookup k (props a) = some v) : WFj v := by
  cases h with
  | mk _ _ h2 => exact h2 k v hl

theorem jtypeof_of_comp (a : JVal) (h : a.isComposite = true) : jtypeof a = "object" := by
  cases a <;> simp_all [JVal.isComposite, jtypeof]

theorem isNull_of_comp (a : JVal) (h : a.isComposite = true) : a.isNull = false := by
  cases a <;> simp_all [JVal.isComposite, JVal.isNull]

theorem primEq_jtypeof (a b : JVal) (h : primEq a b = true) : jtypeof a = jtypeof b := by
  cases a <;> cases b <;> simp_all [primEq, jtypeof]

theorem primEq_prim_cond (a b : JVal) (h : primEq a b = true) :
    jtypeof a ≠ "object" ∨ a = .null ∨ b = .null := by
  cases a <;> cases b <;> simp_all [primEq, jtypeof]

theorem rcArr_iff (xs : List JVal) (i : Nat) (pb : List (String × JVal)) :
    rcArr i xs pb = true ↔
      ∀ p ∈ arrProps i xs, ∃ w, jlookup p.1 pb = some w ∧ recursiveCompare p.2 w = true := by
  induction xs generalizing i with
  | nil => simp [rcArr, arrProps]
  | cons x rest ih =>
    rw [rcArr]
    simp only [arrProps, List.mem_cons, Bool.and_eq_true]
    constructor
    · rintro ⟨h1, h2⟩ p hp
      rcases hp with rfl | hp
      · cases hl : jlookup (toString i) pb with
        | none => rw [hl] at h1; exact absurd h1 (by simp)
        | some w =>
          rw [hl] at h1
          exact ⟨w, rfl, h1⟩
      · exact (ih (i + 1)).mp h2 p hp
    · intro h
      refine ⟨?_, (ih (i + 1)).mpr fun p hp => h p (Or.inr hp)⟩
      obtain ⟨w, hw, hc⟩ := h (toString i, x) (Or.inl rfl)
      rw [hw]
      exact hc

theorem rcObj_iff (kvs : List (String × JVal)) (pb : List (String × JVal)) :
    rcObj kvs pb = true ↔
      ∀ p ∈ kvs, ∃ w, jlookup p.1 pb = some w ∧ recursiveCompare p.2 w = true := by
  induction kvs with
  | nil => simp [rcObj]
  | cons q rest ih =>
    rcases q with ⟨k, v⟩
    rw [rcObj]
    simp only [List.mem_cons, Bool.and_eq_true]
    constructor
    · rintro ⟨h1, h2⟩ p hp
      rcases hp with rfl | hp
      · cases hl : jlookup k pb with
        | none => rw [hl] at h1; exact absurd h1 (by simp)
        | some w =>
          rw [hl] at h1
          exact ⟨w, rfl, h1⟩
      · exact ih.mp h2 p hp
    · intro h
      refine ⟨?_, ih.mpr fun p hp => h p (Or.inr hp)⟩
      obtain ⟨w, hw, hc⟩ := h (k, v) (Or.inl rfl)
      rw [hw]
      exact hc

theorem recursiveCompare_arr (xs : List JVal) (b : JVal) (hb : b.isComposite = true) :
    recursiveCompare (.arr xs) b = true ↔
      (arrProps 0 xs).length = (props b).length ∧
      ∀ p ∈ arrProps 0 xs, ∃ w, jlookup p.1 (props b) = some w ∧
        recursiveCompare p.2 w = true := by
  rw [recursiveCompare]
  rw [if_neg (by rw [jtypeof_of_comp b hb]; simp [jtypeof])]
  rw [if_neg (by rw [isNull_of_comp b hb]; simp [jtypeof, JVal.isNull])]
  simp only [Bool.and_eq_true, beq_iff_eq, props]
  rw [rcArr_iff]

theorem recursiveCompare_obj (kvs : List (String × JVal)) (b : JVal)
    (hb : b.isComposite = true) :
    recursiveCompare (.obj kvs) b = true ↔
      kvs.length = (props b).length ∧
      ∀ p ∈ kvs, ∃ w, jlookup p.1 (props b) = some w ∧
        recursiveCompare p.2 w = true := by
  rw [recursiveCompare]
  rw [if_neg (by rw [jtypeof_of_comp b hb]; simp [jtypeof])]
  rw [if_neg (by rw [isNull_of_comp b hb]; simp [jtypeof, JVal.isNull])]
  simp only [Bool.and_eq_true, beq_iff_eq, props]
  rw [rcObj_iff]

theorem recursiveCompare_comp (a b : JVal) (ha : a.isComposite = true)
    (hb : b.isComposite = true) :
    recursiveCompare a b = true ↔
      (props a).length = (props b).length ∧
      ∀ p ∈ props a, ∃ w, jlookup p.1 (props b) = some w ∧ recursiveCompare p.2 w = true := by
  cases a with
  | arr xs => simpa [props] using recursiveCompare_arr xs b hb
  | obj kvs => simpa [props] using recursiveCompare_obj kvs b hb
  | null => simp [JVal.isComposite] at ha
  | bool c => simp [JVal.isComposite] at ha
  | num n => simp [JVal.isComposite] at ha
  | str st => simp [JVal.isComposite] at ha

theorem recursiveCompare_not_comp (a b : JVal)
    (h : ¬(a.isComposite = true ∧ b.isComposite = true)) :
    recursiveCompare a b = true ↔ primEq a b = true := by
  cases a <;> cases b <;>
    simp_all [recursiveCompare, jtypeof, primEq, JVal.isNull, JVal.isComposite]

theorem specEqJS_not_comp (a b : JVal)
    (h : ¬(a.isComposite = true ∧ b.isComposite = true)) :
    SpecEqJS a b ↔ primEq a b = true := by
  constructor
  · intro hs
    cases hs with
    | prim _ _ hcond hp => exact hp
    | comp _ _ hca hcb _ _ => exact absurd ⟨hca, hcb⟩ h
  · intro hp
    exact SpecEqJS.prim a b (primEq_prim_cond a b hp) hp

theorem deepEq_aux : ∀ n (a b : JVal), sizeOf a ≤ n → WFj a → WFj b →
    (recursiveCompare a b = true ↔ SpecEqJS a b) := by
  intro n
  induction n with
  | zero =>
    intro a b hsz _ _
    exact absurd hsz (by cases a <;> simp)
  | succ n ih =>
    intro a b hsz ha hb
    by_cases hcomp : a.isComposite = true ∧ b.isComposite = true
    · obtain ⟨hca, hcb⟩ := hcomp
      rw [recursiveCompare_comp a b hca hcb]
      constructor
      · rintro ⟨hlen, hloop⟩
        have hsub : ∀ k ∈ (props a).map Prod.fst, k ∈ (props b).map Prod.fst := by
          intro k hk
          obtain ⟨v, hv⟩ := (mem_map_fst_iff _ k).mp hk
          obtain ⟨w, hw, -⟩ := hloop (k, v) hv
          exact (mem_map_fst_iff _ k).mpr ⟨w, jlookup_mem _ k w hw⟩
        have hiff := keyset_iff_of_subset_len _ _ ha.keysNodup hb.keysNodup
          (by simpa using hlen) hsub
        refine SpecEqJS.comp a b hca hcb ?_ ?_
        · intro k
          rw [jlookup_eq_none_iff, jlookup_eq_none_iff]
          exact not_congr (hiff k)
        · intro k v w hv hw
          have hvmem := jlookup_mem _ k v hv
          obtain ⟨w1, hw1, hc1⟩ := hloop (k, v) hvmem
          rw [hw] at hw1
          injection hw1 with hww
          subst hww
          have hszv : sizeOf v ≤ n := by
            have hlt : sizeOf v < sizeOf a := by
              simpa using sizeOf_lt_of_mem_props a (k, v) hvmem
            omega
          exact (ih v w hszv (ha.child hv) (hb.child hw)).mp hc1
      · intro hs
        cases hs with
        | prim _ _ hcond hp =>
          exfalso
          rcases hcond with h1 | h2 | h3
          · exact h1 (jtypeof_of_comp a hca)
          · subst h2
            simp [JVal.isComposite] at hca
          · subst h3
            simp [JVal.isComposite] at hcb
        | comp _ _ _ _ hkeys hvals =>
          have hiff : ∀ k, k ∈ (props a).map Prod.fst ↔ k ∈ (props b).map Prod.fst := by
            intro k
            have h2 := hkeys k
            rw [jlookup_eq_none_iff, jlookup_eq_none_iff] at h2
            exact not_iff_not.mp h2
          refine ⟨?_, ?_⟩
          · simpa using len_eq_of_keyset_iff _ _ ha.keysNodup hb.keysNodup hiff
          · intro p hp
            rcases p with ⟨k, v⟩
            have hv : jlookup k (props a) = some v :=
              jlookup_of_mem_nodup _ k v hp ha.keysNodup
            have hkb : k ∈ (props b).map Prod.fst :=
              (hiff k).mp ((mem_map_fst_iff _ k).mpr ⟨v, hp⟩)
            cases hw : jlookup k (props b) with
            | none =>
              rw [jlookup_eq_none_iff] at hw
              exact absurd hkb hw
            | some w =>
              have hszv : sizeOf v ≤ n := by
                have hlt : sizeOf v < sizeOf a := by
                  simpa using sizeOf_lt_of_mem_props a (k, v) hp
                omega
              exact ⟨w, rfl, (ih v w hszv (ha.child hv) (hb.child hw)).mpr
                (hvals k v w hv hw)⟩
    · rw [recursiveCompare_not_comp a b hcomp, specEqJS_not_comp a b hcomp]

/-- The decimal key of array index 0, as `Object.keys` produces it. -/
theorem natKeyZero : toString (0 : Nat) = "0" := rfl

/-- C9 counterexample: `compareToolsData`'s inner comparison identifies an
array with the plain object of its index keys — `["a"]` and
`{"0": "a"}` compare `true` — so it is not equivalent to recursive
structural equality in the usual shape-respecting sense (`SpecEq`), under
which an array is never equal to a plain object. -/
theorem deepEquality_counterexample :
    recursiveCompare (.arr [.str "a"]) (.obj [("0", .str "a")]) = true ∧
    ¬ SpecEq (.arr [.str "a"]) (.obj [("0", .str "a")]) := by
  constructor
  · simp [recursiveCompare, rcArr, jtypeof, props, arrProps, jlookup, primEq,
      JVal.isNull, natKeyZero]
  · intro h
    cases h

/-- C9 amended: on well-formed values (no duplicate keys), the comparison
used for false-positive suppression returns `true` exactly when the two
values are recursively structurally equal **with every composite viewed
as its string-keyed property mapping** (`SpecEqJS`): equal primitive
leaves, equal key sets with pairwise equal values, independent of key
order — in particular it never returns `false` for two structurally
equal objects whose keys are ordered differently, and value (not
reference) comparison is used throughout; the one departure from
shape-respecting structural equality is that an array and a plain object
with the same index keys and equal values also compare `true`. -/
theorem deepEquality_amended (a b : JVal) (ha : WFj a) (hb : WFj b) :
    recursiveCompare a b = true ↔ SpecEqJS a b :=
  deepEq_aux (sizeOf a) a b le_rfl ha hb

theorem wfNum (n : Int) : WFj (.num n) := by
  refine WFj.mk _ (by simp [props]) ?_
  intro k v h
  simp [props, jlookup] at h

theorem wfTwoKey (x y : Int) : WFj (JVal.obj [("x", .num x), ("y", .num y)]) := by
  refine WFj.mk _ (by simp [props]) ?_
  intro k v h
  have hm := jlookup_mem _ _ _ h
  simp [props] at hm
  rcases hm with ⟨-, rfl⟩ | ⟨-, rfl⟩
  · exact wfNum x
  · exact wfNum y

theorem wfTwoKeySwap (x y : Int) : WFj (JVal.obj [("y", .num y), ("x", .num x)]) := by
  refine WFj.mk _ (by simp [props]) ?_
  intro k v h
  have hm := jlookup_mem _ _ _ h
  simp [props] at hm
  rcases hm with ⟨-, rfl⟩ | ⟨-, rfl⟩
  · exact wfNum y
  · exact wfNum x

/-- C9 witness: two objects with the same two keys in opposite orders are
key-order-independently equal under the code's comparison. -/
theorem deepEquality_witness :
    SpecEqJS (.obj [("x", .num 1), ("y", .num 2)]) (.obj [("y", .num 2), ("x", .num 1)]) :=
  (deepEquality_amended _ _ (wfTwoKey 1 2) (wfTwoKeySwap 1 2)).mp
    (by simp [recursiveCompare, rcObj, jtypeof, props, jlookup, primEq, JVal.isNull])
